import Mathlib

/-!
Verification of the ICY in-band metadata decoder of barzamin/hecate
(src/main.rs), shallowly embedded in Lean 4.

The embedding covers:
* `decode_meta` (src/main.rs lines 33-46): the metadata block decoder.
  Rust strings are modelled as `List Char`; the `HashMap` is modelled as an
  association list observed through `mapGet`, built by overwriting inserts
  (`collectMap`), matching `collect::<HashMap<_,_>>()`.  The two `unwrap`
  calls on the `splitn(2, "=\x27")` iterator are modelled by making the
  per-segment key/value extraction `Option`-valued (`segKV`); `none` stands
  for a panic.
* the frame state machine of `proc_notifier` (src/main.rs lines 89-119):
  `State`, `State.bytes_to_consume`, the inner drain loop (`drain`) and the
  outer chunk loop (`feed`).  Bytes are `Nat`s; `String::from_utf8` is
  modelled by an executable UTF-8 decoder `utf8Decode`.
-/

namespace Hecate

/-- The NUL character, `Char.ofNat 0`. -/
def nulc : Char := Char.ofNat 0

/-- The single-quote character `Char.ofNat 39`. -/
def qqc : Char := Char.ofNat 39

/-- The semicolon character. -/
def semic : Char := ';'

/-- The equals-sign character. -/
def eqc : Char := '='

/-- Rust `char::is_whitespace`: the Unicode White_Space property. -/
def isRustWhitespace (c : Char) : Bool :=
  let n := c.toNat
  n = 0x9 || n = 0xA || n = 0xB || n = 0xC || n = 0xD || n = 0x20 ||
  n = 0x85 || n = 0xA0 || n = 0x1680 || (0x2000 ≤ n && n ≤ 0x200A) ||
  n = 0x2028 || n = 0x2029 || n = 0x202F || n = 0x205F || n = 0x3000

/-- Rust `str::trim`: drop Unicode whitespace from both ends. -/
def rustTrim (s : List Char) : List Char :=
  ((s.dropWhile isRustWhitespace).reverse.dropWhile isRustWhitespace).reverse

/-- Rust `str::trim_matches(c)` specialised to NUL: drop all leading and
trailing NUL characters. -/
def trimNul (s : List Char) : List Char :=
  ((s.dropWhile (· == nulc)).reverse.dropWhile (· == nulc)).reverse

/-- The per-segment normalisation `|s| s.trim().trim_matches(char-0)`
(src/main.rs line 36). -/
def trimSeg (s : List Char) : List Char := trimNul (rustTrim s)

/-- Rust `meta.split("\x27;")` (src/main.rs line 35): split on the
two-character delimiter quote-semicolon, leftmost first, non-overlapping. -/
def splitQS : List Char → List (List Char)
  | [] => [[]]
  | [c] => [[c]]
  | c1 :: c2 :: t =>
    if c1 = qqc ∧ c2 = semic then
      [] :: splitQS t
    else
      match splitQS (c2 :: t) with
      | [] => [[c1]]
      | s :: ss => (c1 :: s) :: ss

/-- Rust `s.contains("=\x27")` (src/main.rs line 38): does the two-character
pattern equals-quote occur in `s`? -/
def containsEq : List Char → Bool
  | [] => false
  | [_] => false
  | c1 :: c2 :: t => (decide (c1 = eqc) && decide (c2 = qqc)) || containsEq (c2 :: t)

/-- Rust `s.splitn(2, "=\x27")` (src/main.rs line 39): everything before the
first occurrence of equals-quote, and — when the pattern occurs — everything
after it. `none` in the second component means the pattern does not occur
(the iterator yields a single element). -/
def splitn2Eq : List Char → List Char × Option (List Char)
  | [] => ([], none)
  | [c] => ([c], none)
  | c1 :: c2 :: t =>
    if c1 = eqc ∧ c2 = qqc then ([], some t)
    else
      let p := splitn2Eq (c2 :: t)
      (c1 :: p.1, p.2)

/-- The segment list after splitting, trimming, and the two filters
(src/main.rs lines 34-38). -/
def filteredSegs (t : List Char) : List (List Char) :=
  (((splitQS t).map trimSeg).filter (fun s => !s.isEmpty)).filter containsEq

/-- The key/value extraction of one segment (src/main.rs lines 39-44):
`splitn(2, "=\x27")` then two `next().unwrap()` calls.  `none` models a
panic of the second `unwrap` (the first `next` of a `splitn` never fails). -/
def segKV (s : List Char) : Option (List Char × List Char) :=
  match splitn2Eq s with
  | (k, some v) => some (k, v)
  | (_, none) => none

/-- Total variant of `segKV`, used to describe the pair a segment yields
once `segKV` is known to succeed. -/
def segKVTotal (s : List Char) : List Char × List Char :=
  ((splitn2Eq s).1, (splitn2Eq s).2.getD [])

/-- Insert into the association-list model of `HashMap`: any earlier binding
of the key is removed and the new binding appended.  Observationally (via
`mapGet`) this is `HashMap::insert`, which overwrites. -/
def mapInsert (m : List (List Char × List Char)) (k v : List Char) :
    List (List Char × List Char) :=
  m.filter (fun p => !(p.1 == k)) ++ [(k, v)]

/-- `collect::<HashMap<_,_>>()` (src/main.rs line 45): fold the pairs into
the map left to right; a later pair with the same key overwrites. -/
def collectMap (ps : List (List Char × List Char)) : List (List Char × List Char) :=
  ps.foldl (fun m p => mapInsert m p.1 p.2) []

/-- `HashMap::get` on the association-list model. -/
def mapGet (m : List (List Char × List Char)) (k : List Char) : Option (List Char) :=
  (m.find? (fun p => p.1 == k)).map Prod.snd

/-- `decode_meta` (src/main.rs lines 33-46).  `none` models a panic of an
`unwrap` inside the iterator chain; the result map is otherwise built from
the filtered segments' key/value pairs. -/
def decode_meta (t : List Char) : Option (List (List Char × List Char)) :=
  ((filteredSegs t).mapM segKV).map collectMap

/-- The key/value pairs `decode_meta` feeds to the map, in text order. -/
def decodedPairs (t : List Char) : List (List Char × List Char) :=
  (filteredSegs t).map segKVTotal

/-- A UTF-8 continuation byte, `0x80..=0xBF`. -/
def contByte (b : Nat) : Bool := 0x80 ≤ b && b ≤ 0xBF

/-- Admissible first continuation byte of a three-byte sequence (excludes
overlong encodings for lead `0xE0` and surrogates for lead `0xED`). -/
def utf8Cont3 (b0 b1 : Nat) : Bool :=
  if b0 = 0xE0 then 0xA0 ≤ b1 && b1 ≤ 0xBF
  else if b0 = 0xED then 0x80 ≤ b1 && b1 ≤ 0x9F
  else contByte b1

/-- Admissible first continuation byte of a four-byte sequence (excludes
overlong encodings for lead `0xF0` and code points above U+10FFFF for lead
`0xF4`). -/
def utf8Cont4 (b0 b1 : Nat) : Bool :=
  if b0 = 0xF0 then 0x90 ≤ b1 && b1 ≤ 0xBF
  else if b0 = 0xF4 then 0x80 ≤ b1 && b1 ≤ 0x8F
  else contByte b1

/-- Rust `String::from_utf8` (src/main.rs line 106): strict UTF-8 validation
and decoding; `none` models `Err(FromUtf8Error)`. -/
def utf8Decode : List Nat → Option (List Char)
  | [] => some []
  | b0 :: t0 =>
    if b0 < 0x80 then
      (utf8Decode t0).map (fun cs => Char.ofNat b0 :: cs)
    else if b0 < 0xC2 then none
    else if b0 < 0xE0 then
      match t0 with
      | b1 :: t1 =>
        if contByte b1 then
          (utf8Decode t1).map (fun cs =>
            Char.ofNat ((b0 - 0xC0) * 0x40 + (b1 - 0x80)) :: cs)
        else none
      | [] => none
    else if b0 < 0xF0 then
      match t0 with
      | b1 :: b2 :: t2 =>
        if utf8Cont3 b0 b1 && contByte b2 then
          (utf8Decode t2).map (fun cs =>
            Char.ofNat ((b0 - 0xE0) * 0x1000 + (b1 - 0x80) * 0x40 + (b2 - 0x80)) :: cs)
        else none
      | _ => none
    else if b0 < 0xF5 then
      match t0 with
      | b1 :: b2 :: b3 :: t3 =>
        if utf8Cont4 b0 b1 && contByte b2 && contByte b3 then
          (utf8Decode t3).map (fun cs =>
            Char.ofNat ((b0 - 0xF0) * 0x40000 + (b1 - 0x80) * 0x1000 +
              (b2 - 0x80) * 0x40 + (b3 - 0x80)) :: cs)
        else none
      | _ => none
    else none

/-- The frame cycle state (src/main.rs lines 18-22). -/
inductive State where
  | SkipAudio (n : Nat)
  | MetaHeader
  | CaptureMeta (n : Nat)
deriving DecidableEq

/-- `State::bytes_to_consume` (src/main.rs lines 24-31): how many buffered
bytes the current state needs before its transition may fire. -/
def State.bytes_to_consume : State → Nat
  | .SkipAudio n => n
  | .CaptureMeta n => n
  | .MetaHeader => 1

/-- The decode failure of the processing loop: `String::from_utf8` failed on
an assembled metadata block (propagated by `?` at src/main.rs line 106). -/
inductive DecodeError where
  | InvalidEncoding
deriving DecidableEq

/-- One metadata record: the mapping decoded from one metadata block. -/
abbrev MetaRecord := List (List Char × List Char)

/-- Outcome of running the drain loop (or the chunk loop): the records
emitted in order, `some` error if `String::from_utf8` failed (processing
aborts), and the final state and buffer. -/
structure DrainResult where
  recs : List MetaRecord
  err : Option DecodeError
  state : State
  buf : List Nat
deriving DecidableEq

/-- Termination measure helper for `drain`: among the transitions that
consume no bytes (`SkipAudio 0` and `CaptureMeta 0`), the rank strictly
drops. -/
def stateRank : State → Nat
  | .MetaHeader => 0
  | .SkipAudio _ => 1
  | .CaptureMeta _ => 2

/-- The inner drain loop of `proc_notifier` (src/main.rs lines 94-119):
`while data.len() >= state.bytes_to_consume()` perform one transition.
`VecDeque::drain(0..n)` becomes `take`/`drop`; `pop_front` becomes the
head of a nonempty buffer (the `MetaHeader` guard `1 ≤ data.len()` is the
match on the buffer).  The test `meta.len() > 0` compares the byte length
of the decoded string, which equals `n`, the number of drained bytes.  The
emitted record is `decode_meta` of the decoded block; on a `from_utf8`
failure the error is returned and the loop stops (the buffer is reported
as at entry to the failing transition — processing aborts, so it is never
consulted again). -/
def drain (metaint : Nat) (st : State) (buf : List Nat) : DrainResult :=
  match st with
  | .SkipAudio n =>
    if h : n ≤ buf.length then
      drain metaint .MetaHeader (buf.drop n)
    else ⟨[], none, .SkipAudio n, buf⟩
  | .MetaHeader =>
    match buf with
    | [] => ⟨[], none, .MetaHeader, []⟩
    | b :: rest => drain metaint (.CaptureMeta (b * 16)) rest
  | .CaptureMeta n =>
    if h : n ≤ buf.length then
      match utf8Decode (buf.take n) with
      | none => ⟨[], some .InvalidEncoding, .CaptureMeta n, buf⟩
      | some meta =>
        let r := drain metaint (.SkipAudio metaint) (buf.drop n)
        ⟨(if 0 < n then [(decode_meta meta).getD []] else []) ++ r.recs,
          r.err, r.state, r.buf⟩
    else ⟨[], none, .CaptureMeta n, buf⟩
termination_by (buf.length, stateRank st)
decreasing_by
  · simp only [stateRank]
    rcases Nat.eq_zero_or_pos n with hn | hn
    · subst hn
      simp only [List.drop_zero]
      exact Prod.Lex.right _ (by decide)
    · exact Prod.Lex.left _ _
        (by
          simp only [List.length_drop]
          exact Nat.sub_lt (Nat.lt_of_lt_of_le hn h) hn)
  · exact Prod.Lex.left _ _ (by simp [Nat.lt_succ_self])
  · simp only [stateRank]
    rcases Nat.eq_zero_or_pos n with hn | hn
    · subst hn
      simp only [List.drop_zero]
      exact Prod.Lex.right _ (by decide)
    · exact Prod.Lex.left _ _
        (by
          simp only [List.length_drop]
          exact Nat.sub_lt (Nat.lt_of_lt_of_le hn h) hn)

/-- The outer chunk loop of `proc_notifier` (src/main.rs lines 91-120):
for each arriving chunk, `data.extend(chunk)` then run the drain loop; a
decode error is propagated by `?`, so the remaining chunks are never
processed. -/
def feed (metaint : Nat) (st : State) (buf : List Nat) :
    List (List Nat) → DrainResult
  | [] => ⟨[], none, st, buf⟩
  | c :: cs =>
    let r := drain metaint st (buf ++ c)
    match r.err with
    | some e => ⟨r.recs, some e, r.state, r.buf⟩
    | none =>
      let r2 := feed metaint r.state r.buf cs
      ⟨r.recs ++ r2.recs, r2.err, r2.state, r2.buf⟩

/-! One-step unfolding lemmas for the drain loop. -/

theorem drain_skip_go (m n : Nat) (buf : List Nat) (h : n ≤ buf.length) :
    drain m (.SkipAudio n) buf = drain m .MetaHeader (buf.drop n) := by
  rw [drain.eq_def]
  simp [h]

theorem drain_skip_wait (m n : Nat) (buf : List Nat) (h : buf.length < n) :
    drain m (.SkipAudio n) buf = ⟨[], none, .SkipAudio n, buf⟩ := by
  rw [drain.eq_def]
  simp [Nat.not_le.mpr h]

theorem drain_header_nil (m : Nat) :
    drain m .MetaHeader [] = ⟨[], none, .MetaHeader, []⟩ := by
  rw [drain.eq_def]

theorem drain_header_cons (m b : Nat) (rest : List Nat) :
    drain m .MetaHeader (b :: rest) = drain m (.CaptureMeta (b * 16)) rest := by
  rw [drain.eq_def]

theorem drain_capture_invalid (m n : Nat) (buf : List Nat) (h : n ≤ buf.length)
    (hu : utf8Decode (buf.take n) = none) :
    drain m (.CaptureMeta n) buf = ⟨[], some .InvalidEncoding, .CaptureMeta n, buf⟩ := by
  rw [drain.eq_def]
  simp [h, hu]

theorem drain_capture_decode (m n : Nat) (buf : List Nat) (meta : List Char)
    (h : n ≤ buf.length) (hu : utf8Decode (buf.take n) = some meta) :
    drain m (.CaptureMeta n) buf =
      ⟨(if 0 < n then [(decode_meta meta).getD []] else []) ++
          (drain m (.SkipAudio m) (buf.drop n)).recs,
        (drain m (.SkipAudio m) (buf.drop n)).err,
        (drain m (.SkipAudio m) (buf.drop n)).state,
        (drain m (.SkipAudio m) (buf.drop n)).buf⟩ := by
  rw [drain.eq_def]
  simp [h, hu]

theorem drain_capture_wait (m n : Nat) (buf : List Nat) (h : buf.length < n) :
    drain m (.CaptureMeta n) buf = ⟨[], none, .CaptureMeta n, buf⟩ := by
  rw [drain.eq_def]
  simp [Nat.not_le.mpr h]

/-- The drain loop makes no transition when the buffer is below the current
state's threshold (the `while` guard fails immediately). -/
theorem drain_stop (m : Nat) (st : State) (buf : List Nat)
    (h : buf.length < st.bytes_to_consume) :
    drain m st buf = ⟨[], none, st, buf⟩ := by
  match st with
  | .SkipAudio n => exact drain_skip_wait m n buf h
  | .MetaHeader =>
    match buf with
    | [] => exact drain_header_nil m
    | b :: rest => simp [State.bytes_to_consume] at h
  | .CaptureMeta n => exact drain_capture_wait m n buf h

/-- A configuration on which the drain loop's guard fails: the buffer holds
fewer bytes than the current state requires. -/
def Quiescent (st : State) (buf : List Nat) : Prop :=
  buf.length < st.bytes_to_consume

/-- When the drain loop returns without error, it has run to exhaustion: the
final configuration is quiescent. -/
theorem drain_quiescent (m : Nat) (st : State) (buf : List Nat)
    (h : (drain m st buf).err = none) :
    Quiescent (drain m st buf).state (drain m st buf).buf := by
  induction st, buf using drain.induct m with
  | case1 buf n hn ih =>
    rw [drain_skip_go m n buf hn] at h ⊢
    exact ih h
  | case2 buf n hn =>
    rw [drain_skip_wait m n buf (Nat.not_le.mp hn)]
    exact Nat.not_le.mp hn
  | case3 =>
    rw [drain_header_nil m]
    exact Nat.zero_lt_one
  | case4 b0 t0 ih =>
    rw [drain_header_cons m b0 t0] at h ⊢
    exact ih h
  | case5 buf n hn hu =>
    rw [drain_capture_invalid m n buf hn hu] at h
    simp at h
  | case6 buf n hn meta hu ih =>
    rw [drain_capture_decode m n buf meta hn hu] at h ⊢
    exact ih h
  | case7 buf n hn =>
    rw [drain_capture_wait m n buf (Nat.not_le.mp hn)]
    exact Nat.not_le.mp hn

/-- Continuing a drain outcome with extra bytes appended to the buffer: an
error outcome stands (with the extra bytes merely appended), a clean outcome
drains again from where it stopped. -/
def continueWith (m : Nat) (r : DrainResult) (extra : List Nat) : DrainResult :=
  match r.err with
  | some e => ⟨r.recs, some e, r.state, r.buf ++ extra⟩
  | none =>
    let r2 := drain m r.state (r.buf ++ extra)
    ⟨r.recs ++ r2.recs, r2.err, r2.state, r2.buf⟩

/-- Splitting the buffer commutes with draining: draining `b1 ++ b2` is
draining `b1` and then continuing with `b2`. -/
theorem drain_append (m : Nat) (st : State) (b1 b2 : List Nat) :
    drain m st (b1 ++ b2) = continueWith m (drain m st b1) b2 := by
  induction st, b1 using drain.induct m with
  | case1 b1 n hn ih =>
    rw [drain_skip_go m n b1 hn,
      drain_skip_go m n (b1 ++ b2) (by simp; omega),
      List.drop_append_of_le_length hn]
    exact ih
  | case2 b1 n hn =>
    rw [drain_skip_wait m n b1 (Nat.not_le.mp hn)]
    simp [continueWith]
  | case3 =>
    rw [drain_header_nil m]
    simp [continueWith]
  | case4 b0 t0 ih =>
    rw [List.cons_append, drain_header_cons m b0 (t0 ++ b2),
      drain_header_cons m b0 t0]
    exact ih
  | case5 b1 n hn hu =>
    rw [drain_capture_invalid m n b1 hn hu,
      drain_capture_invalid m n (b1 ++ b2) (by simp; omega)
        (by rwa [List.take_append_of_le_length hn])]
    simp [continueWith]
  | case6 b1 n hn meta hu ih =>
    rw [drain_capture_decode m n b1 meta hn hu,
      drain_capture_decode m n (b1 ++ b2) meta (by simp; omega)
        (by rwa [List.take_append_of_le_length hn]),
      List.drop_append_of_le_length hn, ih]
    cases herr : (drain m (.SkipAudio m) (b1.drop n)).err with
    | some e => simp [continueWith, herr]
    | none => simp [continueWith, herr]
  | case7 b1 n hn =>
    rw [drain_capture_wait m n b1 (Nat.not_le.mp hn)]
    simp [continueWith]

/-- The records the chunk loop emits depend only on the concatenation of the
chunks, provided the starting configuration is quiescent (as the initial
configuration and every configuration the loop leaves behind are). -/
theorem feed_recs (m : Nat) :
    ∀ (chunks : List (List Nat)) (st : State) (buf : List Nat),
      Quiescent st buf →
      (feed m st buf chunks).recs = (drain m st (buf ++ chunks.flatten)).recs := by
  intro chunks
  induction chunks with
  | nil =>
    intro st buf hq
    rw [List.flatten_nil, List.append_nil, drain_stop m st buf hq]
    rfl
  | cons c cs ih =>
    intro st buf hq
    rw [List.flatten_cons, ← List.append_assoc, drain_append m st (buf ++ c) cs.flatten]
    cases herr : (drain m st (buf ++ c)).err with
    | some e => simp [feed, continueWith, herr]
    | none =>
      simp only [feed, continueWith, herr]
      rw [ih _ _ (drain_quiescent m st (buf ++ c) herr)]

/-- C1: for every `metaint > 0`, length byte `b`, and byte sequence of
exactly `metaint` audio bytes, the length byte, and `b*16` metadata bytes,
running the chunk loop (append chunk, drain to exhaustion) over any
partition of that sequence into chunks emits exactly the same sequence of
decoded metadata records as delivering the whole sequence as one chunk. -/
theorem chunk_boundary_invariance (metaint b : Nat) (audio meta : List Nat)
    (chunks : List (List Nat)) (hm : 0 < metaint) (hb : b < 256)
    (ha : audio.length = metaint) (hmeta : meta.length = b * 16)
    (hflat : chunks.flatten = audio ++ b :: meta) :
    (feed metaint (.SkipAudio metaint) [] chunks).recs =
      (feed metaint (.SkipAudio metaint) [] [audio ++ b :: meta]).recs := by
  have hq : Quiescent (.SkipAudio metaint) [] := by
    simpa [Quiescent, State.bytes_to_consume] using hm
  rw [feed_recs metaint chunks _ _ hq, feed_recs metaint [audio ++ b :: meta] _ _ hq,
    hflat]
  simp

/-- Witness for C1: `metaint = 1`, audio byte `65`, length byte `0`,
delivered one byte per chunk versus as a single chunk. -/
theorem chunk_boundary_invariance_witness :
    0 < 1 ∧ (0 : Nat) < 256 ∧ ([65] : List Nat).length = 1 ∧
      ([] : List Nat).length = 0 * 16 ∧
      ([[65], [0]] : List (List Nat)).flatten = [65] ++ 0 :: [] ∧
      (feed 1 (.SkipAudio 1) [] [[65], [0]]).recs =
        (feed 1 (.SkipAudio 1) [] [[65] ++ 0 :: []]).recs :=
  ⟨by decide, by decide, by decide, by decide, by decide,
    chunk_boundary_invariance 1 0 [65] [] [[65], [0]]
      (by decide) (by decide) (by decide) (by decide) (by decide)⟩

/-- C2: in state `CaptureMeta 0` (the preceding length byte was `0`) the
drain loop calls no decoder and emits no record for that block, and the
machine resumes exactly as if it were already skipping `metaint` audio
bytes: the transition drains zero bytes, `String::from_utf8` of the empty
vector trivially succeeds, the `meta.len() > 0` guard is false, and the
next state is `SkipAudio metaint`. -/
theorem capture_zero_no_emission (metaint : Nat) (buf : List Nat) :
    drain metaint (.CaptureMeta 0) buf = drain metaint (.SkipAudio metaint) buf := by
  rw [drain_capture_decode metaint 0 buf [] (Nat.zero_le _) (by rw [List.take_zero]; rfl)]
  simp

/-- C3: popping a length byte `b` in the `MetaHeader` state enters
`CaptureMeta (b * 16)`; for `b = 255` that state requires exactly `4080`
buffered bytes before the capture fires, and with fewer than `4080` bytes
the drain loop makes no transition and reports no error. -/
theorem length_byte_sixteen_units :
    (∀ (m b : Nat) (rest : List Nat),
        drain m .MetaHeader (b :: rest) = drain m (.CaptureMeta (b * 16)) rest) ∧
      (State.CaptureMeta (255 * 16)).bytes_to_consume = 4080 ∧
      (∀ (m : Nat) (buf : List Nat), buf.length < 4080 →
          drain m (.CaptureMeta (255 * 16)) buf =
            ⟨[], none, .CaptureMeta (255 * 16), buf⟩) :=
  ⟨fun m b rest => drain_header_cons m b rest,
    rfl,
    fun m buf h => drain_capture_wait m (255 * 16) buf h⟩

/-- Witness for C3: the length byte `255` with an empty buffer. -/
theorem length_byte_sixteen_units_witness :
    drain 1 .MetaHeader [255] = drain 1 (.CaptureMeta 4080) [] ∧
      ([] : List Nat).length < 4080 ∧
      drain 1 (.CaptureMeta (255 * 16)) [] = ⟨[], none, .CaptureMeta (255 * 16), []⟩ :=
  ⟨length_byte_sixteen_units.1 1 255 [], by decide,
    length_byte_sixteen_units.2.2 1 [] (by decide)⟩

/-- C6: when the assembled metadata block's bytes are not valid UTF-8, the
drain loop returns the invalid-encoding error, emitting no record for that
block and making no further transition; and the chunk loop propagates such
an error, never touching the remaining chunks. -/
theorem invalid_encoding_aborts (m n : Nat) (buf : List Nat)
    (h : n ≤ buf.length) (hu : utf8Decode (buf.take n) = none) :
    drain m (.CaptureMeta n) buf = ⟨[], some .InvalidEncoding, .CaptureMeta n, buf⟩ ∧
      (∀ (st0 : State) (buf0 c : List Nat) (cs : List (List Nat)),
          (drain m st0 (buf0 ++ c)).err = some .InvalidEncoding →
          feed m st0 buf0 (c :: cs) =
            ⟨(drain m st0 (buf0 ++ c)).recs, some .InvalidEncoding,
              (drain m st0 (buf0 ++ c)).state, (drain m st0 (buf0 ++ c)).buf⟩) := by
  refine ⟨drain_capture_invalid m n buf h hu, ?_⟩
  intro st0 buf0 c cs herr
  simp [feed, herr]

/-- Witness for C6: a one-byte block `[0xFF]`, which is not valid UTF-8. -/
theorem invalid_encoding_aborts_witness :
    (1 ≤ ([0xFF] : List Nat).length ∧
        utf8Decode (([0xFF] : List Nat).take 1) = none) ∧
      drain 7 (.CaptureMeta 1) [0xFF] =
        ⟨[], some .InvalidEncoding, .CaptureMeta 1, [0xFF]⟩ :=
  ⟨⟨by decide, by decide⟩,
    (invalid_encoding_aborts 7 1 [0xFF] (by decide) (by decide)).1⟩

/-- C9: whenever the drain loop's guard holds — the buffer holds at least
`bytes_to_consume` bytes for the current state — every buffer operation of
the transition body is in bounds: `drain(0..n)` in `SkipAudio n` and
`CaptureMeta n` removes exactly `n` existing bytes (the buffer splits as
`take n ++ drop n` with `take n` of full length `n`), and `pop_front` in
`MetaHeader` returns `Some`. -/
theorem drain_loop_inbounds (st : State) (buf : List Nat)
    (h : st.bytes_to_consume ≤ buf.length) :
    (∀ n : Nat, st = .SkipAudio n ∨ st = .CaptureMeta n →
        n ≤ buf.length ∧ (buf.take n).length = n ∧ buf.take n ++ buf.drop n = buf) ∧
      (st = .MetaHeader → ∃ b rest, buf = b :: rest) := by
  constructor
  · intro n hst
    have hn : n ≤ buf.length := by
      rcases hst with hst | hst <;> subst hst <;>
        simpa [State.bytes_to_consume] using h
    exact ⟨hn, by simpa using hn, List.take_append_drop n buf⟩
  · intro hst
    subst hst
    match buf with
    | [] => simp [State.bytes_to_consume] at h
    | b :: rest => exact ⟨b, rest, rfl⟩

/-- Witness for C9: state `CaptureMeta 2` with a three-byte buffer, and
state `MetaHeader` with a one-byte buffer. -/
theorem drain_loop_inbounds_witness :
    ((State.CaptureMeta 2).bytes_to_consume ≤ ([1, 2, 3] : List Nat).length ∧
        2 ≤ ([1, 2, 3] : List Nat).length ∧
        (([1, 2, 3] : List Nat).take 2).length = 2 ∧
        ([1, 2, 3] : List Nat).take 2 ++ ([1, 2, 3] : List Nat).drop 2 = [1, 2, 3]) ∧
      (State.MetaHeader.bytes_to_consume ≤ ([9] : List Nat).length ∧
        ∃ b rest, ([9] : List Nat) = b :: rest) :=
  ⟨⟨by decide,
      (drain_loop_inbounds (.CaptureMeta 2) [1, 2, 3] (by decide)).1 2 (Or.inr rfl)⟩,
    ⟨by decide,
      (drain_loop_inbounds .MetaHeader [9] (by decide)).2 rfl⟩⟩

/-! Supporting lemmas for the metadata block decoder. -/

/-- If a segment contains the equals-quote pattern, `splitn(2, ...)` yields a
second element, so the second `unwrap` succeeds. -/
theorem containsEq_splitn2 (s : List Char) (h : containsEq s = true) :
    ((splitn2Eq s).2).isSome = true := by
  induction s using containsEq.induct with
  | case1 => simp [containsEq] at h
  | case2 c => simp [containsEq] at h
  | case3 c1 c2 t ih =>
    rw [containsEq] at h
    rw [splitn2Eq]
    by_cases hc : c1 = eqc ∧ c2 = qqc
    · simp [hc]
    · simp only [hc, if_false]
      have h2 : containsEq (c2 :: t) = true := by
        rcases Bool.or_eq_true_iff.mp h with h1 | h1
        · exact absurd ⟨of_decide_eq_true (Bool.and_eq_true_iff.mp h1).1,
            of_decide_eq_true (Bool.and_eq_true_iff.mp h1).2⟩ hc
        · exact h1
      simpa using ih h2

/-- On a segment that passed the `contains` filter, the `Option`-valued
key/value extraction succeeds and agrees with its total description. -/
theorem segKV_eq (s : List Char) (h : containsEq s = true) :
    segKV s = some (segKVTotal s) := by
  have hs := containsEq_splitn2 s h
  rw [segKV, segKVTotal]
  rcases h2 : splitn2Eq s with ⟨k, o⟩
  rcases o with _ | v
  · rw [h2] at hs; simp at hs
  · simp [h2]

/-- `mapM segKV` succeeds on any list of segments that all contain the
equals-quote pattern. -/
theorem mapM_segKV (l : List (List Char)) (h : ∀ s ∈ l, containsEq s = true) :
    l.mapM segKV = some (l.map segKVTotal) := by
  induction l with
  | nil => rfl
  | cons s l ih =>
    rw [List.mapM_cons, segKV_eq s (h s (by simp)), List.map_cons,
      ih (fun x hx => h x (by simp [hx]))]
    rfl

/-- `decode_meta` never panics: it always returns the map collected from the
filtered segments' key/value pairs. -/
theorem decode_meta_eq (t : List Char) :
    decode_meta t = some (collectMap (decodedPairs t)) := by
  rw [decode_meta, decodedPairs, mapM_segKV _ (fun s hs => ?_)]
  · rfl
  · rw [filteredSegs] at hs
    exact (List.mem_filter.mp hs).2

theorem mapGet_mapInsert_self (m : List (List Char × List Char)) (k v : List Char) :
    mapGet (mapInsert m k v) k = some v := by
  rw [mapGet, mapInsert, List.find?_append]
  have h1 : (m.filter fun p => !(p.1 == k)).find? (fun p => p.1 == k) = none := by
    rw [List.find?_eq_none]
    intro x hx
    have := (List.mem_filter.mp hx).2
    simpa using this
  rw [h1]
  simp

theorem mapGet_mapInsert_ne (m : List (List Char × List Char)) (a v k : List Char)
    (h : a ≠ k) :
    mapGet (mapInsert m a v) k = mapGet m k := by
  rw [mapGet, mapInsert, List.find?_append]
  have h2 : ([(a, v)].find? (fun p => p.1 == k)) = none := by
    simp [h]
  rw [h2]
  rw [mapGet]
  congr 1
  rw [Option.or_none]
  induction m with
  | nil => rfl
  | cons p m ih =>
    rw [List.filter_cons]
    by_cases hp : p.1 = a
    · rw [if_neg (by simp [hp])]
      rw [ih, List.find?_cons_of_neg]
      simp [hp, h]
    · rw [if_pos (by simp [hp])]
      by_cases hk : p.1 = k
      · rw [List.find?_cons_of_pos _ (by simpa using hk),
          List.find?_cons_of_pos _ (by simpa using hk)]
      · rw [List.find?_cons_of_neg _ (by simpa using hk),
          List.find?_cons_of_neg _ (by simpa using hk), ih]

/-- The map built by left-to-right overwriting insert resolves a key to the
last pair with that key. -/
theorem collect_get_aux (ps : List (List Char × List Char)) :
    ∀ (m0 : List (List Char × List Char)) (k : List Char),
      mapGet (ps.foldl (fun m p => mapInsert m p.1 p.2) m0) k =
        ((ps.reverse.find? (fun p => p.1 == k)).map Prod.snd).or (mapGet m0 k) := by
  induction ps with
  | nil => intro m0 k; simp
  | cons p ps ih =>
    intro m0 k
    rw [List.foldl_cons, ih, List.reverse_cons, List.find?_append]
    cases hf : ps.reverse.find? (fun p => p.1 == k) with
    | some q => simp [hf]
    | none =>
      simp only [hf, Option.none_or]
      by_cases hp : p.1 = k
      · subst hp
        rw [List.find?_cons_of_pos _ (by simp)]
        simp [mapGet_mapInsert_self]
      · rw [List.find?_cons_of_neg _ (by simpa using hp),
          mapGet_mapInsert_ne m0 p.1 p.2 k hp]
        simp

/-- `mapGet` on `collectMap` is the value of the last pair with the key. -/
theorem collectMap_get (ps : List (List Char × List Char)) (k : List Char) :
    mapGet (collectMap ps) k =
      ((ps.filter (fun p => p.1 == k)).getLast?).map Prod.snd := by
  rw [collectMap, collect_get_aux ps [] k]
  have hnil : mapGet [] k = none := rfl
  rw [hnil, Option.or_none]
  rw [← List.filter_head?, List.filter_reverse, List.head?_reverse]

theorem mapInsert_keys_nodup (m : List (List Char × List Char)) (a v : List Char)
    (h : (m.map Prod.fst).Nodup) :
    ((mapInsert m a v).map Prod.fst).Nodup := by
  rw [mapInsert, List.map_append]
  rw [List.nodup_append]
  refine ⟨?_, by simp, ?_⟩
  · exact h.sublist ((List.filter_sublist m).map Prod.fst)
  · intro x hx hx2
    simp only [List.map_cons, List.map_nil, List.mem_singleton] at hx2
    subst hx2
    rcases List.mem_map.mp hx with ⟨p, hp, hpa⟩
    have := (List.mem_filter.mp hp).2
    rw [hpa] at this
    simp at this

/-- The collected map binds each key at most once. -/
theorem collectMap_keys_nodup (ps : List (List Char × List Char)) :
    ((collectMap ps).map Prod.fst).Nodup := by
  rw [collectMap]
  suffices h : ∀ (m0 : List (List Char × List Char)), (m0.map Prod.fst).Nodup →
      ((ps.foldl (fun m p => mapInsert m p.1 p.2) m0).map Prod.fst).Nodup from
    h [] (by simp)
  induction ps with
  | nil => intro m0 hm; simpa using hm
  | cons p ps ih =>
    intro m0 hm
    rw [List.foldl_cons]
    exact ih _ (mapInsert_keys_nodup m0 p.1 p.2 hm)

theorem dropWhile_all {p : Char → Bool} (l : List Char) (h : ∀ c ∈ l, p c = true) :
    l.dropWhile p = [] := by
  induction l with
  | nil => rfl
  | cons c l ih =>
    rw [List.dropWhile_cons_of_pos (h c (by simp))]
    exact ih (fun x hx => h x (by simp [hx]))

theorem dropWhile_ws_of_nul (l : List Char) (h : ∀ c ∈ l, c = nulc) :
    l.dropWhile isRustWhitespace = l := by
  cases l with
  | nil => rfl
  | cons c l =>
    have hc : c = nulc := h c (by simp)
    rw [List.dropWhile_cons_of_neg (by rw [hc]; decide)]

/-- A text without a semicolon has no quote-semicolon delimiter: `split`
yields the whole text as the only segment. -/
theorem splitQS_no_semi (t : List Char) : semic ∉ t → splitQS t = [t] := by
  induction t using splitQS.induct with
  | case1 => intro h; rfl
  | case2 c => intro h; rfl
  | case3 c1 c2 t hc ih =>
    intro h
    exact absurd (by simp [hc.2]) h
  | case4 c1 c2 t hc hnil ih =>
    intro h
    have h2 : splitQS (c2 :: t) = [c2 :: t] :=
      ih (fun hm => h (List.mem_cons_of_mem c1 hm))
    rw [h2] at hnil
    exact absurd hnil (by simp)
  | case5 c1 c2 t hc s ss hcons ih =>
    intro h
    have h2 : splitQS (c2 :: t) = [c2 :: t] :=
      ih (fun hm => h (List.mem_cons_of_mem c1 hm))
    rw [splitQS, if_neg hc, h2]

/-- Trimming whitespace and then NUL characters annihilates a segment made
of NUL padding surrounded by whitespace. -/
theorem trimSeg_ws_nul (w1 z w2 : List Char)
    (hw1 : ∀ c ∈ w1, isRustWhitespace c = true)
    (hw2 : ∀ c ∈ w2, isRustWhitespace c = true)
    (hz : ∀ c ∈ z, c = nulc) :
    trimSeg (w1 ++ z ++ w2) = [] := by
  have htrim : rustTrim (w1 ++ z ++ w2) = z := by
    rw [rustTrim, List.append_assoc, List.dropWhile_append_of_pos hw1]
    cases z with
    | nil =>
      rw [List.nil_append, dropWhile_all w2 hw2]
      rfl
    | cons c z' =>
      have hc : c = nulc := hz c (by simp)
      rw [List.cons_append, List.dropWhile_cons_of_neg (by rw [hc]; decide),
        ← List.cons_append, List.reverse_append,
        List.dropWhile_append_of_pos (fun a ha => hw2 a (List.mem_reverse.mp ha)),
        dropWhile_ws_of_nul _ (fun a ha => hz a (List.mem_reverse.mp ha)),
        List.reverse_reverse]
  rw [trimSeg, htrim, trimNul,
    dropWhile_all z (fun c hc => by rw [hz c hc]; simp)]
  rfl

/-! Concrete metadata block texts used by the claims. -/

/-- The text `StreamTitle='Artist - Song';StreamUrl='http://x'`. -/
def exTitleUrl : List Char :=
  "StreamTitle=".toList ++ [qqc] ++ "Artist - Song".toList ++ [qqc, semic] ++
    "StreamUrl=".toList ++ [qqc] ++ "http://x".toList ++ [qqc]

/-- The text `garbage;StreamTitle='Song'`. -/
def exGarbage : List Char :=
  "garbage;StreamTitle=".toList ++ [qqc] ++ "Song".toList ++ [qqc]

/-- The text `A='1';A='2';` — the same key twice. -/
def exDupKeys : List Char :=
  "A=".toList ++ [qqc] ++ "1".toList ++ [qqc, semic] ++
    "A=".toList ++ [qqc] ++ "2".toList ++ [qqc, semic]

/-- C4 counterexample: on `StreamTitle='Artist - Song';StreamUrl='http://x'`
the decoder binds `StreamUrl` to `http://x'` — with the trailing quote — not
to `http://x`: the final field has no quote-semicolon terminator, so its
closing quote is not consumed by the split and stays in the value. -/
theorem titleurl_example_cex :
    (decode_meta exTitleUrl).map (fun m => mapGet m "StreamUrl".toList) =
        some (some ("http://x".toList ++ [qqc])) ∧
      ("http://x".toList ++ [qqc] : List Char) ≠ "http://x".toList := by decide

/-- C4 amended: decoding `StreamTitle='Artist - Song';StreamUrl='http://x'`
yields the mapping `StreamTitle` to `Artist - Song` and `StreamUrl` to
`http://x'` (trailing quote retained, since the last field is not followed
by the quote-semicolon delimiter). -/
theorem titleurl_example_actual :
    decode_meta exTitleUrl =
      some [("StreamTitle".toList, "Artist - Song".toList),
            ("StreamUrl".toList, "http://x".toList ++ [qqc])] := by decide

/-- C5 counterexample: decoding `garbage;StreamTitle='Song'` does not yield
a `StreamTitle` binding at all: the field delimiter is the two-character
sequence quote-semicolon, which does not occur in this text, so the whole
text is a single segment and its first equals-quote splits it into the key
`garbage;StreamTitle` and the value `Song'`. -/
theorem malformed_example_cex :
    (decode_meta exGarbage).map (fun m => mapGet m "StreamTitle".toList) =
        some none ∧
      decode_meta exGarbage =
        some [("garbage;StreamTitle".toList, "Song".toList ++ [qqc])] := by decide

/-- C5 amended: the decoder never fails on any text — segments lacking the
equals-quote pattern are silently discarded by the `contains` filter — and
decoding `garbage;StreamTitle='Song'` returns exactly the mapping
`garbage;StreamTitle` to `Song'` (the bare semicolon is not a delimiter, so
`garbage;` is not a separate segment). -/
theorem malformed_segments_dropped :
    (∀ t : List Char, (decode_meta t).isSome = true) ∧
      (∀ t s : List Char, containsEq s = false → s ∉ filteredSegs t) ∧
      decode_meta exGarbage =
        some [("garbage;StreamTitle".toList, "Song".toList ++ [qqc])] := by
  refine ⟨fun t => by rw [decode_meta_eq t]; rfl, ?_, by decide⟩
  intro t s hs hmem
  rw [filteredSegs] at hmem
  have h2 := (List.mem_filter.mp hmem).2
  rw [hs] at h2
  exact absurd h2 (by simp)

/-- Witness for C5: the segment `garbage` lacks the pattern and is dropped
from every text's segment pipeline. -/
theorem malformed_segments_dropped_witness :
    containsEq "garbage".toList = false ∧
      "garbage".toList ∉ filteredSegs "garbage".toList ∧
      (decode_meta "x".toList).isSome = true :=
  ⟨by decide,
    malformed_segments_dropped.2.1 "garbage".toList "garbage".toList (by decide),
    malformed_segments_dropped.1 "x".toList⟩

/-- C7: a block of NUL padding, possibly surrounded by whitespace, decodes
to the empty mapping with no error: the single segment becomes empty after
trimming whitespace and NUL bytes and is discarded. -/
theorem nul_padding_empty_map (w1 z w2 : List Char)
    (hw1 : ∀ c ∈ w1, isRustWhitespace c = true)
    (hw2 : ∀ c ∈ w2, isRustWhitespace c = true)
    (hz : ∀ c ∈ z, c = nulc) :
    decode_meta (w1 ++ z ++ w2) = some [] ∧ trimSeg (w1 ++ z ++ w2) = [] := by
  have hsemi : semic ∉ w1 ++ z ++ w2 := by
    intro hm
    rcases List.mem_append.mp hm with hm | hm
    · rcases List.mem_append.mp hm with hm | hm
      · exact absurd (hw1 _ hm) (by decide)
      · exact absurd (hz _ hm) (by decide)
    · exact absurd (hw2 _ hm) (by decide)
  have hempty : trimSeg (w1 ++ z ++ w2) = [] := trimSeg_ws_nul w1 z w2 hw1 hw2 hz
  refine ⟨?_, hempty⟩
  rw [decode_meta, filteredSegs, splitQS_no_semi _ hsemi]
  simp only [List.map_cons, List.map_nil]
  rw [hempty]
  rfl

/-- Witness for C7: the block space, NUL, NUL. -/
theorem nul_padding_empty_map_witness :
    (∀ c ∈ ([' '] : List Char), isRustWhitespace c = true) ∧
      (∀ c ∈ ([] : List Char), isRustWhitespace c = true) ∧
      (∀ c ∈ [nulc, nulc], c = nulc) ∧
      decode_meta ([' '] ++ [nulc, nulc] ++ []) = some [] :=
  ⟨by decide, by decide, by decide,
    (nul_padding_empty_map [' '] [nulc, nulc] [] (by decide) (by decide)
      (by decide)).1⟩

/-- C8: when the parsed segments bind the same key more than once, the
decoded mapping binds that key to the value of the last such segment in
text order, and each key occurs at most once in the result. -/
theorem last_key_wins (t k : List Char)
    (hdup : 1 < ((decodedPairs t).filter (fun p => p.1 == k)).length) :
    decode_meta t = some (collectMap (decodedPairs t)) ∧
      mapGet (collectMap (decodedPairs t)) k =
        (((decodedPairs t).filter (fun p => p.1 == k)).getLast?).map Prod.snd ∧
      ((collectMap (decodedPairs t)).map Prod.fst).Nodup :=
  ⟨decode_meta_eq t, collectMap_get _ k, collectMap_keys_nodup _⟩

/-- Witness for C8: `A='1';A='2';` binds `A` twice; the result maps `A` to
the last value. -/
theorem last_key_wins_witness :
    1 < ((decodedPairs exDupKeys).filter (fun p => p.1 == "A".toList)).length ∧
      mapGet (collectMap (decodedPairs exDupKeys)) "A".toList =
        (((decodedPairs exDupKeys).filter
            (fun p => p.1 == "A".toList)).getLast?).map Prod.snd :=
  ⟨by decide, (last_key_wins exDupKeys "A".toList (by decide)).2.1⟩

/-- C10: the metadata block decoder is total — it returns a map on every
input string, and in particular the `splitn(2, ...)` of every segment that
passed the `contains` filter yields a second element, so both `unwrap`
calls succeed. -/
theorem decode_meta_total :
    (∀ s : List Char, containsEq s = true → ((splitn2Eq s).2).isSome = true) ∧
      (∀ t : List Char, (decode_meta t).isSome = true) :=
  ⟨containsEq_splitn2, fun t => by rw [decode_meta_eq t]; rfl⟩

/-- Witness for C10: the segment `a='b` contains the pattern and splits;
decoding `x` succeeds. -/
theorem decode_meta_total_witness :
    (containsEq ("a=".toList ++ [qqc] ++ "b".toList) = true ∧
        ((splitn2Eq ("a=".toList ++ [qqc] ++ "b".toList)).2).isSome = true) ∧
      (decode_meta "x".toList).isSome = true :=
  ⟨⟨by decide, decode_meta_total.1 _ (by decide)⟩, decode_meta_total.2 _⟩

end Hecate
